import Mathlib

/-!
Shallow embedding of `devicely/everion.py` (class `EverionReader`).

Modelling conventions:
* A raw stream table (a pandas `DataFrame` loaded by `_read_file`) is a
  `RawTable`: a list of `RawRow`s plus a flag recording whether the split
  `quality` column exists.  `time` is kept as integer nanoseconds since the
  epoch (pandas `datetime64[ns]`); the CSV wire format stores whole seconds,
  so a freshly loaded table has `time = s * 10^9`.
* Machine floats are idealised as `ℚ`; `NaN` cells are `Option.none`.
* A pivoted wide frame (the result of `_convert_single_dataframe` /
  `_join`) is a list of named columns, each a partial map from reconstructed
  time (in seconds, `ℚ`) to a value.  A frame cell that is absent from a
  column's series corresponds to a `NaN` produced by the outer join.
* Fallible steps (`KeyError` from `_tag_name`, the `verify_integrity=True`
  failure of `set_index`) are `Except String`.
-/

namespace Everion

/-- One row of a raw stream table: columns `time` (ns since epoch), `tag`,
`values`, optional `quality`, `count`, `streamType`. -/
structure RawRow where
  time : Int
  tag : Int
  values : ℚ
  quality : Option ℚ
  count : Int
  streamType : Int
deriving DecidableEq, Repr

/-- A raw stream table; `hasQuality` records whether the `quality` column is
present (it is created by `_read_file` only when some `values` entry had the
`"v;q"` form). -/
structure RawTable where
  hasQuality : Bool
  rows : List RawRow
deriving DecidableEq, Repr

/-- `EverionReader.SIGNAL_TAGS`. -/
def SIGNAL_TAGS : List (Int × String) :=
  [(6, "heart_rate"), (7, "oxygen_saturation"), (8, "perfusion_index"),
   (9, "motion_activity"), (10, "activity_classification"),
   (11, "heart_rate_variability"), (12, "respiration_rate"), (13, "energy"),
   (15, "ctemp"), (19, "temperature_local"), (20, "barometer_pressure"),
   (21, "gsr_electrode"), (22, "health_score"),
   (23, "relax_stress_intensity_score"), (24, "sleep_quality_index_score"),
   (25, "training_effect_score"), (26, "activity_score"),
   (66, "richness_score"), (68, "heart_rate_quality"),
   (69, "oxygen_saturation_quality"), (70, "blood_pulse_wave"),
   (71, "number_of_steps"), (72, "activity_classification_quality"),
   (73, "energy_quality"), (74, "heart_rate_variability_quality"),
   (75, "respiration_rate_quality"), (76, "ctemp_quality"),
   (118, "temperature_object"), (119, "temperature_barometer"),
   (133, "perfusion_index_quality"), (134, "blood_pulse_wave_quality")]

/-- `EverionReader.SENSOR_TAGS`. -/
def SENSOR_TAGS : List (Int × String) :=
  [(80, "led1_data"), (81, "led2_data"), (82, "led3_data"), (83, "led4_data"),
   (84, "accx_data"), (85, "accy_data"), (86, "accz_data"),
   (88, "led2_current"), (89, "led3_current"), (90, "led4_current"),
   (91, "current_offset"), (92, "compressed_data")]

/-- `EverionReader.FEATURE_TAGS`. -/
def FEATURE_TAGS : List (Int × String) :=
  [(14, "inter_pulse_interval"), (17, "pis"), (18, "pid"),
   (77, "inter_pulse_deviation"), (78, "pis_quality"), (79, "pid_quality")]

/-- `EverionReader.default_signal_tags`. -/
def default_signal_tags : List Int := [6, 7, 11, 12, 15, 19, 20, 21, 118, 119]

/-- `EverionReader.default_sensor_tags`. -/
def default_sensor_tags : List Int := [80, 81, 82, 83, 84, 85, 86]

/-- `EverionReader.default_feature_tags`. -/
def default_feature_tags : List Int := [14]

/-- `EverionReader.ACC_NAMES`. -/
def ACC_NAMES : List String := ["accx_data", "accy_data", "accz_data"]

/-- The tag-id keys of a catalog dictionary. -/
def keys (catalog : List (Int × String)) : List Int := catalog.map (·.1)

/-- Dictionary lookup `catalog[t]` returning `none` on a `KeyError`. -/
def lookupTag (catalog : List (Int × String)) (t : Int) : Option String :=
  (catalog.find? (fun p => p.1 == t)).map (·.2)

/-- `EverionReader._tag_name`: probe the signal, sensor, then feature
catalogs; `none` models the final `KeyError`. -/
def tagName (t : Int) : Option String :=
  (lookupTag SIGNAL_TAGS t).orElse fun _ =>
    (lookupTag SENSOR_TAGS t).orElse fun _ => lookupTag FEATURE_TAGS t

/-- The quality-column name chosen in `_convert_single_dataframe`:
`"<name>_deviation"` for tag 14, else `"<name>_quality"`. -/
def qualityName (t : Int) (name : String) : String :=
  if t == 14 then name ++ "_deviation" else name ++ "_quality"

/-- `DataFrame.drop_duplicates()`: keep the first occurrence of each row. -/
def dedupKeepFirst {α : Type} [DecidableEq α] : List α → List α → List α
  | [], _ => []
  | x :: xs, seen =>
    if x ∈ seen then dedupKeepFirst xs seen
    else x :: dedupKeepFirst xs (x :: seen)

/-- `drop_duplicates` entry point (empty "seen" set). -/
def dropDuplicates {α : Type} [DecidableEq α] (l : List α) : List α :=
  dedupKeepFirst l []

/-- Rows fed into the pivot: `df.drop_duplicates()` then, when a tag subset
is supplied, `df[df.tag.isin(selected_tags)]`. -/
def prepRows (rows : List RawRow) (sel : Option (List Int)) : List RawRow :=
  match sel with
  | none => dropDuplicates rows
  | some s => (dropDuplicates rows).filter (fun r => s.contains r.tag)

/-- `df.time.astype(int) / 10**9`: nanoseconds to (exact) seconds. -/
def toSec (ns : Int) : ℚ := (ns : ℚ) / 1000000000

/-- The `groupby('time')` group of row `r` inside `rows`. -/
def groupOf (rows : List RawRow) (r : RawRow) : List RawRow :=
  rows.filter (fun s => toSec s.time == toSec r.time)

/-- Minimum of a list of integers (groups are never empty in the code, the
`[]` case is a junk value). -/
def intMin : List Int → Int
  | [] => 0
  | x :: xs => xs.foldl min x

/-- Maximum of a list of integers. -/
def intMax : List Int → Int
  | [] => 0
  | x :: xs => xs.foldl max x

/-- `count_min = group['count'].min()`. -/
def countMin (g : List RawRow) : Int := intMin (g.map RawRow.count)

/-- `count_range = group['count'].max() - group['count'].min() + 1`. -/
def countRange (g : List RawRow) : Int :=
  intMax (g.map RawRow.count) - countMin g + 1

/-- The reconstructed fractional-second timestamp of row `r`:
`time + (count - count_min) / count_range` over `r`'s whole-second group. -/
def reconTime (rows : List RawRow) (r : RawRow) : ℚ :=
  toSec r.time +
    ((r.count - countMin (groupOf rows r) : Int) : ℚ) /
      ((countRange (groupOf rows r) : Int) : ℚ)

/-- One column of a pivoted wide frame: a name plus a partial (finite) map
from reconstructed time to value. -/
structure Column where
  name : String
  series : List (ℚ × ℚ)
deriving DecidableEq, Repr

/-- A wide frame is its list of columns; the row index is derived
(`frameIndex`).  Cells absent from a column's series are the `NaN`s that the
outer join introduces. -/
abbrev WideFrame := List Column

/-- Column labels of a frame. -/
def colNames (f : WideFrame) : List String := f.map (·.name)

/-- Insert a time into a sorted duplicate-free index, keeping it sorted and
duplicate-free. -/
def sortedInsert (t : ℚ) : List ℚ → List ℚ
  | [] => [t]
  | x :: xs =>
    if t < x then t :: x :: xs
    else if t == x then x :: xs
    else x :: sortedInsert t xs

/-- The (sorted, duplicate-free) row index of a frame: the union of the
index sets of all columns, as the pandas outer join maintains it. -/
def frameIndex (f : WideFrame) : List ℚ :=
  (f.flatMap (fun c => c.series.map Prod.fst)).foldr sortedInsert []

/-- Look a time up in a column's series. -/
def lookupSeries (s : List (ℚ × ℚ)) (t : ℚ) : Option ℚ :=
  (s.find? (fun p => p.1 == t)).map (·.2)

/-- The first column with a given label. -/
def getCol (f : WideFrame) (n : String) : Option Column :=
  f.find? (fun c => c.name == n)

/-- The frame cell at column `n`, row `t`; `none` is a missing value. -/
def getCell (f : WideFrame) (n : String) (t : ℚ) : Option ℚ :=
  (getCol f n).bind fun c => lookupSeries c.series t

/-- The `groupby('tag')` group of tag `tag` inside `rows`. -/
def tagGroup (rows : List RawRow) (tag : Int) : List RawRow :=
  rows.filter (fun r => r.tag == tag)

/-- The distinct tags of `rows` in ascending order — the iteration order of
`df.groupby('tag')`. -/
def distinctTags (rows : List RawRow) : List Int :=
  List.insertionSort (· ≤ ·) (dropDuplicates (rows.map (·.tag)))

/-- The loop body of `_convert_single_dataframe` for one tag group:
resolve the tag name (`KeyError` → error), rename `values`/`quality`, drop
the bookkeeping columns, `dropna(axis=1)` (default `how='any'`: a column is
dropped when ANY of the group's entries is missing — only `quality` can be),
skip the tag when the sub-table is empty or its value column is all zero,
then `set_index('time', verify_integrity=True)` (duplicate reconstructed
times → error) and `sort_index()`.  `ok none` means the tag was skipped. -/
def processTag (hasQ : Bool) (rows : List RawRow) (tag : Int) :
    Except String (Option (List Column)) :=
  match tagName tag with
  | none => .error ("no corresponding tag name for tag number")
  | some name =>
    let grp := tagGroup rows tag
    let keepQuality : Bool :=
      hasQ && decide (∀ r ∈ grp, r.quality.isSome = true)
    if grp.isEmpty ∨ (∀ r ∈ grp, r.values = 0) then .ok none
    else
      let pairs := grp.map (fun r => (reconTime rows r, r))
      if (pairs.map Prod.fst).Nodup then
        let sorted := List.insertionSort
          (fun a b : ℚ × RawRow => a.1 ≤ b.1) pairs
        .ok (some
          (⟨name, sorted.map (fun p => (p.1, p.2.values))⟩ ::
            (if keepQuality then
              [⟨qualityName tag name,
                sorted.map (fun p => (p.1, p.2.quality.getD 0))⟩]
            else [])))
      else .error ("Index has duplicate keys")

/-- `EverionReader._convert_single_dataframe`.  The accumulating outer join
`new_df.join(sub_df, how='outer')` appends the surviving tag's columns (tag
column names are distinct across surviving tags for the catalog
selections the code validates, so the pandas overlap error cannot fire). -/
def convertSingleDataframe (df : Option RawTable) (sel : Option (List Int)) :
    Except String WideFrame :=
  match df with
  | none => .ok []
  | some t =>
    let rows := prepRows t.rows sel
    (distinctTags rows).foldlM
      (fun acc tag => do
        match ← processTag t.hasQuality rows tag with
        | none => pure acc
        | some cols => pure (acc ++ cols))
      ([] : WideFrame)

/-- `np.linalg.norm` of a single row, idealised over `ℚ` (`Rat.sqrt` is the
exact square root whenever the Euclidean norm is rational, as in every value
the claims evaluate). -/
def accNorm (x y z : ℚ) : ℚ := Rat.sqrt (x * x + y * y + z * z)

/-- The `acc_mag` cell at one index row of the combined frame: the norm of
the three axis cells, `NaN` (i.e. `none`) as soon as one of them is
missing. -/
def accMagEntry (f : WideFrame) (t : ℚ) : Option (ℚ × ℚ) :=
  (getCell f "accx_data" t).bind fun x =>
    (getCell f "accy_data" t).bind fun y =>
      (getCell f "accz_data" t).map fun z => (t, accNorm x y z)

/-- Lines 154-155 of `_join`: when all of `ACC_NAMES` are among the combined
columns, append an `acc_mag` column whose cell at each index row is the
Euclidean norm of the three axis cells; a row where any axis cell is `NaN`
gets a `NaN` magnitude (absent from the series). -/
def addAccMag (f : WideFrame) : WideFrame :=
  if ∀ n ∈ ACC_NAMES, n ∈ colNames f then
    f ++ [⟨"acc_mag", (frameIndex f).filterMap (accMagEntry f)⟩]
  else f

/-- The reader's state: the selected tag subsets and the seven optional raw
tables (`None` when the file was absent or ambiguous). -/
structure Reader where
  signal_tags : List Int
  sensor_tags : List Int
  feature_tags : List Int
  aggregates : Option RawTable
  analytics_events : Option RawTable
  attributes_dailys : Option RawTable
  everion_events : Option RawTable
  features : Option RawTable
  sensors : Option RawTable
  signals : Option RawTable
deriving Repr

/-- `EverionReader._join`: pivot signals, features and sensors (in that
order), outer-join the three frames into one, then derive `acc_mag`. -/
def joinData (rd : Reader) : Except String WideFrame := do
  let s ← convertSingleDataframe rd.signals (some rd.signal_tags)
  let f ← convertSingleDataframe rd.features (some rd.feature_tags)
  let n ← convertSingleDataframe rd.sensors (some rd.sensor_tags)
  pure (addAccMag (s ++ f ++ n))

/-- `EverionReader._raw_dataframes`: the seven optional raw tables. -/
def rawTablesOf (rd : Reader) : List (Option RawTable) :=
  [rd.aggregates, rd.analytics_events, rd.attributes_dailys,
   rd.everion_events, rd.features, rd.sensors, rd.signals]

/-- `df['time'].min()` in nanoseconds. -/
def minTime (rows : List RawRow) : Int := intMin (rows.map RawRow.time)

/-- The anchor branch of `timeshift`: re-anchor one table so that its own
earliest record lands on `anchor`, preserving relative offsets. -/
def shiftAnchor (anchor : Int) (t : RawTable) : RawTable :=
  { t with rows :=
      t.rows.map (fun r => { r with time := anchor + (r.time - minTime t.rows) }) }

/-- One row under the duration branch of `timeshift`. -/
def shiftRow (d : Int) (r : RawRow) : RawRow := { r with time := r.time + d }

/-- The duration branch of `timeshift`: `df['time'] += shift`. -/
def shiftDelta (d : Int) (t : RawTable) : RawTable :=
  { t with rows := t.rows.map (shiftRow d) }

/-- `timeshift(pd.Timestamp)`: shift every present raw table, then `_join`
is re-run (the refreshed combined table is `joinData` of the result). -/
def timeshiftAnchor (anchor : Int) (rd : Reader) : Reader :=
  { rd with
    aggregates := rd.aggregates.map (shiftAnchor anchor)
    analytics_events := rd.analytics_events.map (shiftAnchor anchor)
    attributes_dailys := rd.attributes_dailys.map (shiftAnchor anchor)
    everion_events := rd.everion_events.map (shiftAnchor anchor)
    features := rd.features.map (shiftAnchor anchor)
    sensors := rd.sensors.map (shiftAnchor anchor)
    signals := rd.signals.map (shiftAnchor anchor) }

/-- `timeshift(pd.Timedelta)`: add the duration to every present table. -/
def timeshiftDelta (d : Int) (rd : Reader) : Reader :=
  { rd with
    aggregates := rd.aggregates.map (shiftDelta d)
    analytics_events := rd.analytics_events.map (shiftDelta d)
    attributes_dailys := rd.attributes_dailys.map (shiftDelta d)
    everion_events := rd.everion_events.map (shiftDelta d)
    features := rd.features.map (shiftDelta d)
    sensors := rd.sensors.map (shiftDelta d)
    signals := rd.signals.map (shiftDelta d) }

/-- The tables handed over by the file-loading collaborator. -/
structure LoadedTables where
  aggregates : Option RawTable
  analytics_events : Option RawTable
  attributes_dailys : Option RawTable
  everion_events : Option RawTable
  features : Option RawTable
  sensors : Option RawTable
  signals : Option RawTable
deriving Repr

/-- Lines 80-91 of `__init__`: validate the caller's signal, feature and
sensor tag subsets (in that order) against their catalogs; the first invalid
tag raises a `KeyError`. -/
def validateTags (sig sen feat : List Int) : Except String Unit :=
  if ∀ t ∈ sig, t ∈ keys SIGNAL_TAGS then
    if ∀ t ∈ feat, t ∈ keys FEATURE_TAGS then
      if ∀ t ∈ sen, t ∈ keys SENSOR_TAGS then .ok ()
      else .error ("not a valid sensor tag")
    else .error ("not a valid feature tag")
  else .error ("not a valid signal tag")

/-- `EverionReader.__init__` after the directory check: validate the tag
subsets FIRST, and only then locate/read the raw tables (modelled by the
`tables` argument, consumed only after validation succeeds) and `_join`. -/
def initReader (sig sen feat : List Int) (tables : LoadedTables) :
    Except String (Reader × WideFrame) := do
  validateTags sig sen feat
  let rd : Reader :=
    { signal_tags := sig, sensor_tags := sen, feature_tags := feat,
      aggregates := tables.aggregates,
      analytics_events := tables.analytics_events,
      attributes_dailys := tables.attributes_dailys,
      everion_events := tables.everion_events,
      features := tables.features, sensors := tables.sensors,
      signals := tables.signals }
  let d ← joinData rd
  pure (rd, d)

/-- A `values` cell on the CSV wire: either a bare float or the
`"<value>;<quality>"` pair (CSV float printing/parsing itself is the
out-of-scope I/O collaborator). -/
inductive WireVal where
  | bare (v : ℚ)
  | pair (v q : ℚ)
deriving DecidableEq, Repr

/-- One CSV row as written by `_write_single_df` / read by `_read_file`:
`time` is whole seconds. -/
structure WireRow where
  time : Int
  tag : Int
  wval : WireVal
  count : Int
  streamType : Int
deriving DecidableEq, Repr

/-- `astype(int)` truncation (toward zero) of a rational. -/
def truncQ (q : ℚ) : Int := if 0 ≤ q then ⌊q⌋ else -⌊-q⌋

/-- One row of `_write_single_df`: truncate `time` to whole seconds and,
when the table has a quality column, re-encode present qualities into the
`values` string. -/
def writeRow (hasQ : Bool) (r : RawRow) : WireRow :=
  { time := truncQ (toSec r.time), tag := r.tag,
    wval :=
      match hasQ, r.quality with
      | true, some q => .pair r.values q
      | _, _ => .bare r.values,
    count := r.count, streamType := r.streamType }

/-- `EverionReader._write_single_df` (minus the CSV text layer). -/
def writeTable (t : RawTable) : List WireRow :=
  t.rows.map (writeRow t.hasQuality)

/-- Turn a wire row back into a raw row; `hasQ` says whether the
`values.str.split(';')` branch ran (some entry had a quality part). -/
def parseWireRow (hasQ : Bool) (w : WireRow) : RawRow :=
  { time := w.time * 1000000000, tag := w.tag,
    values := match w.wval with | .bare v => v | .pair v _ => v,
    quality :=
      if hasQ then
        match w.wval with | .bare _ => none | .pair _ q => some q
      else none,
    count := w.count, streamType := w.streamType }

/-- Whether a wire cell carries a `";"`-separated quality part. -/
def hasQualityPart (w : WireRow) : Bool :=
  match w.wval with | .bare _ => false | .pair _ _ => true

/-- Whether `df['values'].astype(float)` raises (some entry is a
`"v;q"` string), which makes `_read_file` split the column. -/
def hasQualityWire (wl : List WireRow) : Bool :=
  (dropDuplicates wl).any hasQualityPart

/-- `EverionReader._read_file` after the CSV text layer: parse `time` with
`unit='s'`, `drop_duplicates()`, then either keep `values` as floats (when
every entry parses) or split every entry into `values`/`quality`. -/
def readTable (wl : List WireRow) : RawTable :=
  { hasQuality := hasQualityWire wl,
    rows := (dropDuplicates wl).map (parseWireRow (hasQualityWire wl)) }

/-! ### Basic facts about `drop_duplicates` -/

theorem mem_dedupKeepFirst {α : Type} [DecidableEq α] {l seen : List α} {x : α} :
    x ∈ dedupKeepFirst l seen ↔ x ∈ l ∧ x ∉ seen := by
  induction l generalizing seen with
  | nil => simp [dedupKeepFirst]
  | cons y ys ih =>
    by_cases hy : y ∈ seen
    · rw [dedupKeepFirst, if_pos hy, ih]
      constructor
      · rintro ⟨h1, h2⟩; exact ⟨by simp [h1], h2⟩
      · rintro ⟨h1, h2⟩
        rcases List.mem_cons.mp h1 with h1 | h1
        · exact absurd (h1 ▸ hy) h2
        · exact ⟨h1, h2⟩
    · rw [dedupKeepFirst, if_neg hy]
      by_cases hxy : x = y
      · subst hxy; simp [hy]
      · simp only [List.mem_cons, hxy, false_or, or_false]
        rw [ih]
        simp [hxy]

theorem nodup_dedupKeepFirst {α : Type} [DecidableEq α] (l seen : List α) :
    (dedupKeepFirst l seen).Nodup := by
  induction l generalizing seen with
  | nil => simp [dedupKeepFirst]
  | cons y ys ih =>
    by_cases hy : y ∈ seen
    · rw [dedupKeepFirst, if_pos hy]; exact ih seen
    · rw [dedupKeepFirst, if_neg hy, List.nodup_cons]
      refine ⟨fun hmem => ?_, ih _⟩
      exact (mem_dedupKeepFirst.mp hmem).2 (by simp)

theorem dedupKeepFirst_eq_self {α : Type} [DecidableEq α] {l seen : List α}
    (hl : l.Nodup) (hs : ∀ x ∈ l, x ∉ seen) : dedupKeepFirst l seen = l := by
  induction l generalizing seen with
  | nil => rfl
  | cons y ys ih =>
    have hy : y ∉ seen := hs y (by simp)
    rw [List.nodup_cons] at hl
    rw [dedupKeepFirst, if_neg hy]
    refine congrArg (y :: ·) (ih hl.2 fun x hx => ?_)
    simp only [List.mem_cons, not_or]
    exact ⟨fun h => hl.1 (h ▸ hx), hs x (by simp [hx])⟩

theorem nodup_dropDuplicates {α : Type} [DecidableEq α] (l : List α) :
    (dropDuplicates l).Nodup := nodup_dedupKeepFirst l []

theorem dropDuplicates_eq_self {α : Type} [DecidableEq α] {l : List α}
    (h : l.Nodup) : dropDuplicates l = l :=
  dedupKeepFirst_eq_self h (by simp)

theorem dropDuplicates_idem {α : Type} [DecidableEq α] (l : List α) :
    dropDuplicates (dropDuplicates l) = dropDuplicates l :=
  dropDuplicates_eq_self (nodup_dropDuplicates l)

theorem mem_dropDuplicates {α : Type} [DecidableEq α] {l : List α} {x : α} :
    x ∈ dropDuplicates l ↔ x ∈ l := by
  rw [dropDuplicates, mem_dedupKeepFirst]; simp

theorem dedupKeepFirst_replicate_mem {α : Type} [DecidableEq α] (n : Nat)
    (r : α) (seen : List α) (h : r ∈ seen) :
    dedupKeepFirst (List.replicate n r) seen = [] := by
  induction n with
  | zero => rfl
  | succ m ih => rw [List.replicate_succ, dedupKeepFirst, if_pos h]; exact ih

theorem dropDuplicates_replicate {α : Type} [DecidableEq α] {n : Nat}
    (hn : 1 ≤ n) (r : α) : dropDuplicates (List.replicate n r) = [r] := by
  obtain ⟨m, rfl⟩ : ∃ m, n = m + 1 := ⟨n - 1, by omega⟩
  rw [List.replicate_succ, dropDuplicates, dedupKeepFirst, if_neg (by simp)]
  rw [dedupKeepFirst_replicate_mem m r [r] (by simp)]

/-! ### Claim C8: tag validation at construction -/

theorem validateTags_ok_iff (sig sen feat : List Int) :
    validateTags sig sen feat = .ok () ↔
      (∀ t ∈ sig, t ∈ keys SIGNAL_TAGS) ∧ (∀ t ∈ sen, t ∈ keys SENSOR_TAGS) ∧
        (∀ t ∈ feat, t ∈ keys FEATURE_TAGS) := by
  unfold validateTags
  split_ifs with h1 h2 h3 <;> simp_all

/-- Claim C8: a caller-specified tag id outside its catalog namespace makes
construction fail with an error whose outcome is independent of the loaded
tables (validation runs before any table is read or processed), and
validation succeeds exactly when every caller-specified tag is valid. -/
theorem C8_tag_validation (sig sen feat : List Int) (tb tb' : LoadedTables) :
    (validateTags sig sen feat = .ok () ↔
      (∀ t ∈ sig, t ∈ keys SIGNAL_TAGS) ∧ (∀ t ∈ sen, t ∈ keys SENSOR_TAGS) ∧
        (∀ t ∈ feat, t ∈ keys FEATURE_TAGS))
    ∧ (((∃ t ∈ sig, t ∉ keys SIGNAL_TAGS) ∨ (∃ t ∈ sen, t ∉ keys SENSOR_TAGS) ∨
          (∃ t ∈ feat, t ∉ keys FEATURE_TAGS)) →
        (∃ msg, initReader sig sen feat tb = .error msg)
          ∧ initReader sig sen feat tb = initReader sig sen feat tb') := by
  refine ⟨validateTags_ok_iff sig sen feat, fun hbad => ?_⟩
  have hne : ¬ validateTags sig sen feat = .ok () := by
    rw [validateTags_ok_iff]
    rcases hbad with ⟨t, ht, hv⟩ | ⟨t, ht, hv⟩ | ⟨t, ht, hv⟩ <;>
      intro hall <;> [exact hv (hall.1 t ht); exact hv (hall.2.1 t ht);
        exact hv (hall.2.2 t ht)]
  rcases hv : validateTags sig sen feat with e | u
  · refine ⟨⟨e, ?_⟩, ?_⟩ <;>
      simp [initReader, hv, Bind.bind, Except.bind]
  · cases u; exact absurd hv hne

/-! ### Claim C10: silent removal of exactly duplicated rows -/

/-- Claim C10: exact duplicate rows are removed both at load time
(`_read_file`) and at the start of pivoting (`_convert_single_dataframe`),
so `n` identical records collapse to one row and can never trigger the
duplicate-timestamp integrity error. -/
theorem C10_duplicate_rows (wl : List WireRow) (h : Bool)
    (rows : List RawRow) (sel : Option (List Int)) (n : Nat) (r : RawRow)
    (hn : 1 ≤ n) (hname : (tagName r.tag).isSome = true) :
    readTable wl = readTable (dropDuplicates wl)
    ∧ convertSingleDataframe (some ⟨h, rows⟩) sel
        = convertSingleDataframe (some ⟨h, dropDuplicates rows⟩) sel
    ∧ dropDuplicates (List.replicate n r) = [r]
    ∧ ∃ f, convertSingleDataframe (some ⟨h, List.replicate n r⟩) sel = .ok f := by
  refine ⟨?_, ?_, dropDuplicates_replicate hn r, ?_⟩
  · simp [readTable, hasQualityWire, dropDuplicates_idem]
  · cases sel <;> simp [convertSingleDataframe, prepRows, dropDuplicates_idem]
  · obtain ⟨name, hnm⟩ := Option.isSome_iff_exists.mp hname
    have hprep : prepRows (List.replicate n r) sel = [r]
        ∨ prepRows (List.replicate n r) sel = [] := by
      cases sel with
      | none => exact Or.inl (by simp [prepRows, dropDuplicates_replicate hn])
      | some s =>
        simp only [prepRows, dropDuplicates_replicate hn]
        by_cases hc : s.contains r.tag
        · exact Or.inl (by simp [hc]; simpa using hc)
        · exact Or.inr (by simp [hc]; simpa using hc)
    rcases hprep with hp | hp
    · rw [convertSingleDataframe, hp]
      have htags : distinctTags [r] = [r.tag] := by
        simp [distinctTags, dropDuplicates, dedupKeepFirst]
      rw [htags]
      have hgrp : tagGroup [r] r.tag = [r] := by simp [tagGroup]
      by_cases hz : r.values = 0
      · refine ⟨[], ?_⟩
        simp [List.foldlM, processTag, hnm, hgrp, hz, Bind.bind, Except.bind,
          Pure.pure, Except.pure]
      · rcases hres : processTag h [r] r.tag with e | o
        · exfalso
          simp [processTag, hnm, hgrp, hz] at hres
        · cases o with
          | none =>
            exact ⟨[], by simp [List.foldlM, hres, Bind.bind, Except.bind,
              Pure.pure, Except.pure]⟩
          | some cols =>
            exact ⟨cols, by simp [List.foldlM, hres, Bind.bind, Except.bind,
              Pure.pure, Except.pure]⟩
    · rw [convertSingleDataframe, hp]
      exact ⟨[], rfl⟩

/-- Witness for C8: tag 1 is in no catalog, so construction fails whatever
the loaded tables are. -/
theorem C8_tag_validation_witness :
    ∃ msg, initReader [1] [] []
      ⟨none, none, none, none, none, none, none⟩ = .error msg :=
  ((C8_tag_validation [1] [] [] ⟨none, none, none, none, none, none, none⟩
      ⟨none, none, none, none, none, none, none⟩).2
    (Or.inl ⟨1, by decide, by decide⟩)).1

/-- Witness for C10 at a concrete row replicated three times. -/
theorem C10_duplicate_rows_witness :
    dropDuplicates (List.replicate 3 (⟨0, 6, 1, none, 0, 1⟩ : RawRow))
        = [⟨0, 6, 1, none, 0, 1⟩]
    ∧ ∃ f, convertSingleDataframe
        (some ⟨false, List.replicate 3 (⟨0, 6, 1, none, 0, 1⟩ : RawRow)⟩)
        none = .ok f :=
  let h := C10_duplicate_rows [] false [] none 3 ⟨0, 6, 1, none, 0, 1⟩
    (by decide) (by decide)
  ⟨h.2.2.1, h.2.2.2⟩

/-! ### Claim C9: persist / reload round trip -/

theorem toSec_whole (s : Int) : toSec (s * 1000000000) = (s : ℚ) := by
  unfold toSec
  push_cast
  rw [mul_div_assoc]
  norm_num

theorem truncQ_intCast (s : Int) : truncQ (s : ℚ) = s := by
  unfold truncQ
  split_ifs with h
  · exact Int.floor_intCast s
  · rw [← Int.cast_neg, Int.floor_intCast]; omega

theorem parse_write_row (r : RawRow) (s : Int)
    (hs : r.time = s * 1000000000) :
    parseWireRow true (writeRow true r) = r := by
  cases r with
  | mk time tag values quality count streamType =>
    simp only at hs
    subst hs
    cases quality <;>
      simp [parseWireRow, writeRow, toSec_whole, truncQ_intCast]

/-- Claim C9: persisting a raw table with split `values`/`quality` columns
(whole-second times, distinct rows, at least one present quality — the
shape the load contract delivers) and reloading it through `_read_file`
reproduces the table exactly. -/
theorem C9_write_read_roundtrip (t : RawTable) (hq : t.hasQuality = true)
    (hsome : ∃ r ∈ t.rows, r.quality.isSome = true)
    (hsec : ∀ r ∈ t.rows, r.time % 1000000000 = 0)
    (hnd : t.rows.Nodup) :
    readTable (writeTable t) = t := by
  have hpw : ∀ r ∈ t.rows, parseWireRow true (writeRow true r) = r := by
    intro r hr
    obtain ⟨s, hs⟩ : ∃ s : Int, r.time = s * 1000000000 := by
      refine ⟨r.time / 1000000000, ?_⟩
      have h2 := Int.ediv_add_emod r.time 1000000000
      rw [hsec r hr] at h2
      omega
    exact parse_write_row r s hs
  have hwt : writeTable t = t.rows.map (writeRow true) := by
    rw [writeTable, hq]
  have hroundtrip :
      (t.rows.map (writeRow true)).map (parseWireRow true) = t.rows := by
    rw [List.map_map]
    calc t.rows.map (parseWireRow true ∘ writeRow true)
        = t.rows.map id := List.map_congr_left fun r hr => hpw r hr
      _ = t.rows := List.map_id t.rows
  have hwnd : (t.rows.map (writeRow true)).Nodup :=
    List.Nodup.of_map (parseWireRow true) (by rw [hroundtrip]; exact hnd)
  have hd : dropDuplicates (writeTable t) = t.rows.map (writeRow true) := by
    rw [hwt]; exact dropDuplicates_eq_self hwnd
  have hany : hasQualityWire (writeTable t) = true := by
    rw [hasQualityWire, hd]
    obtain ⟨r, hr, hqual⟩ := hsome
    obtain ⟨q, hqq⟩ := Option.isSome_iff_exists.mp hqual
    refine List.any_eq_true.mpr ⟨writeRow true r, List.mem_map_of_mem _ hr, ?_⟩
    simp [writeRow, hasQualityPart, hqq]
  cases t with
  | mk hasQ rows =>
    simp only at hq hd hany hroundtrip
    subst hq
    simp only [readTable, hany, hd, hroundtrip]

/-- Witness for C9 at a concrete two-row table. -/
theorem C9_write_read_roundtrip_witness :
    readTable (writeTable ⟨true, [⟨0, 6, 1, some 80, 0, 1⟩,
        ⟨1000000000, 6, 2, none, 3, 1⟩]⟩)
      = ⟨true, [⟨0, 6, 1, some 80, 0, 1⟩, ⟨1000000000, 6, 2, none, 3, 1⟩]⟩ :=
  C9_write_read_roundtrip _ rfl (by decide) (by decide) (by decide)

/-! ### Facts about `processTag` and the pivot fold -/

theorem processTag_skip_zero (hasQ : Bool) (rows : List RawRow) (tag : Int)
    (name : String) (hn : tagName tag = some name)
    (hz : ∀ r ∈ tagGroup rows tag, r.values = 0) :
    processTag hasQ rows tag = .ok none := by
  simp only [processTag, hn]
  rw [if_pos (Or.inr hz)]

theorem foldlM_processTag_none (hasQ : Bool) (rows : List RawRow)
    (tags : List Int) (acc : WideFrame)
    (h : ∀ tg ∈ tags, processTag hasQ rows tg = .ok none) :
    (tags.foldlM (fun acc tag => do
        match ← processTag hasQ rows tag with
        | none => pure acc
        | some cols => pure (acc ++ cols)) acc : Except String WideFrame)
      = .ok acc := by
  induction tags generalizing acc with
  | nil => rfl
  | cons t ts ih =>
    rw [List.foldlM_cons]
    have ht := h t (by simp)
    simp only [ht, Bind.bind, Except.bind]
    exact ih acc fun tg htg => h tg (by simp [htg])

theorem foldlM_processTag_error (hasQ : Bool) (rows : List RawRow)
    (tags : List Int) (acc : WideFrame) (tg : Int) (htg : tg ∈ tags)
    (herr : ∃ e, processTag hasQ rows tg = .error e) :
    ∃ e, (tags.foldlM (fun acc tag => do
        match ← processTag hasQ rows tag with
        | none => pure acc
        | some cols => pure (acc ++ cols)) acc : Except String WideFrame)
      = .error e := by
  induction tags generalizing acc with
  | nil => exact absurd htg (by simp)
  | cons t ts ih =>
    rw [List.foldlM_cons]
    rcases hpt : processTag hasQ rows t with e | o
    · exact ⟨e, by simp [Bind.bind, Except.bind]⟩
    · rcases List.mem_cons.mp htg with rfl | htg2
      · obtain ⟨e, he⟩ := herr
        rw [hpt] at he
        exact absurd he (by simp)
      · cases o with
        | none =>
          simpa [Bind.bind, Except.bind, Pure.pure, Except.pure] using
            ih acc htg2
        | some cols =>
          simpa [Bind.bind, Except.bind, Pure.pure, Except.pure] using
            ih (acc ++ cols) htg2

/-! ### Claim C5: uniformly zero tags are discarded -/

/-- Claim C5: a tag whose value column is uniformly zero over its group (or
whose group is empty) is skipped by the pivot, and a stream all of whose
retained rows are zero pivots to the empty wide frame. -/
theorem C5_zero_tag_skipped (hasQ : Bool) (rows : List RawRow) (tag : Int)
    (name : String) (hn : tagName tag = some name)
    (hz : ∀ r ∈ tagGroup rows tag, r.values = 0) :
    processTag hasQ rows tag = .ok none
    ∧ ∀ (t : RawTable) (sel : Option (List Int)),
        (∀ r ∈ prepRows t.rows sel, r.values = 0) →
        (∀ tg ∈ distinctTags (prepRows t.rows sel), (tagName tg).isSome = true) →
        convertSingleDataframe (some t) sel = .ok [] := by
  refine ⟨processTag_skip_zero hasQ rows tag name hn hz, ?_⟩
  intro t sel hz2 hks
  simp only [convertSingleDataframe]
  apply foldlM_processTag_none
  intro tg htg
  obtain ⟨nm, hnm⟩ := Option.isSome_iff_exists.mp (hks tg htg)
  refine processTag_skip_zero t.hasQuality _ tg nm hnm fun r hr => ?_
  exact hz2 r (List.mem_of_mem_filter hr)

/-- Witness for C5: tag 6 with two all-zero readings is skipped and the
stream pivots to the empty frame. -/
theorem C5_zero_tag_skipped_witness :
    processTag false [⟨0, 6, 0, none, 0, 1⟩, ⟨1000000000, 6, 0, none, 0, 1⟩] 6
        = .ok none
    ∧ convertSingleDataframe
        (some ⟨false, [⟨0, 6, 0, none, 0, 1⟩, ⟨1000000000, 6, 0, none, 0, 1⟩]⟩)
        (some [6]) = .ok [] :=
  let h := C5_zero_tag_skipped false
    [⟨0, 6, 0, none, 0, 1⟩, ⟨1000000000, 6, 0, none, 0, 1⟩] 6 "heart_rate"
    (by decide) (by decide)
  ⟨h.1, h.2 ⟨false, [⟨0, 6, 0, none, 0, 1⟩, ⟨1000000000, 6, 0, none, 0, 1⟩]⟩
    (some [6]) (by decide) (by decide)⟩

/-! ### Claim C2: which columns the per-tag `dropna(axis=1)` removes -/

theorem qualityName_ne (tag : Int) (name : String) :
    qualityName tag name ≠ name := by
  unfold qualityName
  split_ifs <;> intro h <;> have h2 := congrArg String.length h <;>
    rw [String.length_append] at h2 <;> simp at h2 <;>
    exact absurd h2 (by decide)

/-- Claim C2 (amended): for a tag group that survives the pivot, the value
column is always retained, while the quality column is retained exactly when
EVERY row of the group has a present quality — equivalently, it is dropped
as soon as at least one entry is missing (`dropna(axis=1)` defaults to
`how='any'`), not only when the column is entirely absent. -/
theorem C2_quality_column_dropna (hasQ : Bool) (rows : List RawRow)
    (tag : Int) (name : String) (cols : List Column)
    (hn : tagName tag = some name)
    (hok : processTag hasQ rows tag = .ok (some cols)) :
    name ∈ cols.map Column.name
    ∧ (qualityName tag name ∈ cols.map Column.name ↔
        hasQ = true ∧ ∀ r ∈ tagGroup rows tag, r.quality.isSome = true) := by
  simp only [processTag, hn] at hok
  by_cases hskip :
      (tagGroup rows tag).isEmpty = true ∨ ∀ r ∈ tagGroup rows tag, r.values = 0
  · rw [if_pos hskip] at hok
    simp at hok
  · rw [if_neg hskip] at hok
    by_cases hnd :
        (((tagGroup rows tag).map
          (fun r => (reconTime rows r, r))).map Prod.fst).Nodup
    · rw [if_pos hnd] at hok
      simp only [Except.ok.injEq, Option.some.injEq] at hok
      subst hok
      by_cases hkq : hasQ = true ∧ ∀ r ∈ tagGroup rows tag, r.quality.isSome = true
      · have hb : (hasQ && decide (∀ r ∈ tagGroup rows tag, r.quality.isSome = true)) = true := by
          rw [hkq.1, Bool.true_and]
          exact decide_eq_true hkq.2
        rw [if_pos hb]
        exact ⟨by simp, iff_of_true (by simp) hkq⟩
      · have hb : (hasQ && decide (∀ r ∈ tagGroup rows tag, r.quality.isSome = true)) = false := by
          rcases Decidable.not_and_iff_or_not.mp hkq with h1 | h1 <;> simp_all
        rw [if_neg (by simp [hb])]
        exact ⟨by simp, iff_of_false (by simp [qualityName_ne tag name]) hkq⟩
    · rw [if_neg hnd] at hok
      simp at hok

/-- Witness for C2 (amended): with every quality present the quality column
is retained; the theorem's iff evaluated at a concrete surviving group. -/
theorem C2_quality_column_dropna_witness :
    "heart_rate" ∈ ([⟨"heart_rate", [(0, 1)]⟩,
        ⟨"heart_rate_quality", [(0, 80)]⟩] : List Column).map Column.name
    ∧ ("heart_rate_quality" ∈ ([⟨"heart_rate", [(0, 1)]⟩,
          ⟨"heart_rate_quality", [(0, 80)]⟩] : List Column).map Column.name ↔
        true = true ∧ ∀ r ∈ tagGroup [⟨0, 6, 1, some 80, 0, 1⟩] 6,
          r.quality.isSome = true) :=
  C2_quality_column_dropna true [⟨0, 6, 1, some 80, 0, 1⟩] 6 "heart_rate"
    [⟨"heart_rate", [(0, 1)]⟩, ⟨"heart_rate_quality", [(0, 80)]⟩]
    (by decide)
    (by
      norm_num [processTag, tagGroup, tagName, lookupTag, reconTime, groupOf,
        toSec, countMin, countRange, intMin, intMax, qualityName, List.find?]
      decide)

/-- Counterexample to C2 as stated: tag 6 has one present quality value
(the column is NOT entirely absent), yet the pivot drops the quality
column, because `dropna(axis=1)` drops any column with at least one
missing entry. -/
theorem C2_counterexample :
    (∃ r ∈ [(⟨0, 6, 1, some 80, 0, 1⟩ : RawRow),
        ⟨1000000000, 6, 2, none, 0, 1⟩], r.quality.isSome = true)
    ∧ convertSingleDataframe
        (some ⟨true, [⟨0, 6, 1, some 80, 0, 1⟩, ⟨1000000000, 6, 2, none, 0, 1⟩]⟩)
        (some [6]) = .ok [⟨"heart_rate", [(0, 1), (1, 2)]⟩]
    ∧ "heart_rate_quality" ∉ colNames [⟨"heart_rate", [(0, 1), (1, 2)]⟩] := by
  refine ⟨⟨⟨0, 6, 1, some 80, 0, 1⟩, by decide, by decide⟩, ?_, by decide⟩
  norm_num [convertSingleDataframe, prepRows, dropDuplicates, dedupKeepFirst,
    distinctTags, processTag, tagGroup, tagName, lookupTag, reconTime, groupOf,
    toSec, countMin, countRange, intMin, intMax, qualityName, List.foldlM,
    Bind.bind, Except.bind, Pure.pure, Except.pure, List.insertionSort,
    List.orderedInsert, List.find?]

/-! ### Claim C3: duplicate reconstructed timestamps abort the pivot -/

/-- Claim C3 (amended): for a tag group that is not skipped by the
empty/all-zero check, duplicate reconstructed timestamps make the whole
stream pivot abort with an error — the rows are never deduplicated or
averaged.  (A tag that IS skipped as all-zero bypasses the check, which is
why the original claim needs the amendment.) -/
theorem C3_duplicate_time_error (t : RawTable) (sel : Option (List Int))
    (tag : Int) (hmem : tag ∈ distinctTags (prepRows t.rows sel))
    (hnz : ¬ ∀ r ∈ tagGroup (prepRows t.rows sel) tag, r.values = 0)
    (hdup : ¬ ((tagGroup (prepRows t.rows sel) tag).map
        (reconTime (prepRows t.rows sel))).Nodup) :
    ∃ e, convertSingleDataframe (some t) sel = .error e := by
  simp only [convertSingleDataframe]
  apply foldlM_processTag_error t.hasQuality (prepRows t.rows sel) _ _ tag hmem
  rcases htn : tagName tag with _ | name
  · exact ⟨"no corresponding tag name for tag number",
      by simp [processTag, htn]⟩
  · refine ⟨"Index has duplicate keys", ?_⟩
    simp only [processTag, htn]
    rw [if_neg, if_neg]
    · rwa [List.map_map]
    · rintro (hemp | hz)
      · rw [List.isEmpty_iff] at hemp
        exact hnz (by simp [hemp])
      · exact hnz hz

/-- Witness for C3 (amended): two distinct nonzero rows sharing second 0 and
count 0 collide after reconstruction and abort the pivot. -/
theorem C3_duplicate_time_error_witness :
    ∃ e, convertSingleDataframe
      (some ⟨false, [⟨0, 6, 1, none, 0, 1⟩, ⟨0, 6, 2, none, 0, 2⟩]⟩)
      (some [6]) = .error e :=
  C3_duplicate_time_error
    ⟨false, [⟨0, 6, 1, none, 0, 1⟩, ⟨0, 6, 2, none, 0, 2⟩]⟩ (some [6]) 6
    (by decide) (by decide)
    (by norm_num [prepRows, dropDuplicates, dedupKeepFirst, tagGroup,
      reconTime, groupOf, toSec, countMin, countRange, intMin, intMax])

/-- Counterexample to C3 as stated: a tag sub-table whose reconstructed
times DO contain a duplicate, yet the pivot succeeds, because the
uniformly-zero skip runs before the integrity check. -/
theorem C3_counterexample :
    ¬ ((tagGroup (prepRows [(⟨0, 6, 0, none, 0, 1⟩ : RawRow),
          ⟨0, 6, 0, none, 0, 2⟩] (some [6])) 6).map
        (reconTime (prepRows [(⟨0, 6, 0, none, 0, 1⟩ : RawRow),
          ⟨0, 6, 0, none, 0, 2⟩] (some [6])))).Nodup
    ∧ convertSingleDataframe
        (some ⟨false, [⟨0, 6, 0, none, 0, 1⟩, ⟨0, 6, 0, none, 0, 2⟩]⟩)
        (some [6]) = .ok [] := by
  constructor
  · norm_num [prepRows, dropDuplicates, dedupKeepFirst, tagGroup,
      reconTime, groupOf, toSec, countMin, countRange, intMin, intMax]
  · norm_num [convertSingleDataframe, prepRows, dropDuplicates, dedupKeepFirst,
      distinctTags, processTag, tagGroup, tagName, lookupTag, reconTime,
      groupOf, toSec, countMin, countRange, intMin, intMax, qualityName,
      List.foldlM, Bind.bind, Except.bind, Pure.pure, Except.pure,
      List.insertionSort, List.orderedInsert, List.find?]

/-! ### Facts about the derived frame index -/

theorem mem_sortedInsert {t x : ℚ} {l : List ℚ} :
    x ∈ sortedInsert t l ↔ x = t ∨ x ∈ l := by
  induction l with
  | nil => simp [sortedInsert]
  | cons y ys ih =>
    rw [sortedInsert]
    split_ifs with h1 h2
    · simp
    · have hty : t = y := by simpa using h2
      subst hty
      constructor
      · exact Or.inr
      · rintro (rfl | h2)
        · simp
        · exact h2
    · rw [List.mem_cons, List.mem_cons, ih]
      tauto

theorem pairwise_sortedInsert {t : ℚ} {l : List ℚ}
    (h : l.Pairwise (· < ·)) : (sortedInsert t l).Pairwise (· < ·) := by
  induction l with
  | nil => simp [sortedInsert]
  | cons y ys ih =>
    rw [List.pairwise_cons] at h
    rw [sortedInsert]
    split_ifs with h1 h2
    · refine List.pairwise_cons.mpr ⟨fun z hz => ?_, List.pairwise_cons.mpr h⟩
      rcases List.mem_cons.mp hz with rfl | hz2
      · exact h1
      · exact lt_trans h1 (h.1 z hz2)
    · exact List.pairwise_cons.mpr h
    · have hyt : y < t := by
        rcases lt_trichotomy t y with h3 | h3 | h3
        · exact absurd h3 h1
        · exact absurd h3 (by simpa using h2)
        · exact h3
      refine List.pairwise_cons.mpr ⟨fun z hz => ?_, ih h.2⟩
      rcases mem_sortedInsert.mp hz with rfl | hz2
      · exact hyt
      · exact h.1 z hz2

theorem mem_foldr_sortedInsert {x : ℚ} {l init : List ℚ} :
    x ∈ l.foldr sortedInsert init ↔ x ∈ l ∨ x ∈ init := by
  induction l with
  | nil => simp
  | cons y ys ih =>
    rw [List.foldr_cons, mem_sortedInsert, ih, List.mem_cons]
    tauto

theorem pairwise_foldr_sortedInsert {l init : List ℚ}
    (h : init.Pairwise (· < ·)) :
    (l.foldr sortedInsert init).Pairwise (· < ·) := by
  induction l with
  | nil => exact h
  | cons y ys ih => exact pairwise_sortedInsert ih

theorem frameIndex_nodup (f : WideFrame) : (frameIndex f).Nodup :=
  (pairwise_foldr_sortedInsert (by simp)).imp ne_of_lt

theorem mem_frameIndex {f : WideFrame} {t : ℚ} :
    t ∈ frameIndex f ↔ ∃ c ∈ f, ∃ p ∈ c.series, p.1 = t := by
  rw [frameIndex, mem_foldr_sortedInsert]
  simp [List.mem_flatMap, eq_comm]

theorem getCell_some_mem_frameIndex {f : WideFrame} {n : String} {t x : ℚ}
    (h : getCell f n t = some x) : t ∈ frameIndex f := by
  rw [getCell] at h
  rcases hc : getCol f n with _ | c
  · rw [hc] at h; simp at h
  · rw [hc] at h
    simp only [Option.some_bind] at h
    rw [lookupSeries] at h
    rcases hp : c.series.find? (fun p => p.1 == t) with _ | p
    · rw [hp] at h; simp at h
    · have hpt : p.1 = t := by simpa using List.find?_some hp
      exact mem_frameIndex.mpr
        ⟨c, List.mem_of_find?_eq_some hc, p, List.mem_of_find?_eq_some hp, hpt⟩

/-! ### Claim C4: accelerometer magnitude -/

theorem addAccMag_eq (f : WideFrame) (h : ∀ n ∈ ACC_NAMES, n ∈ colNames f) :
    addAccMag f = f ++ [⟨"acc_mag", (frameIndex f).filterMap (accMagEntry f)⟩] := by
  rw [addAccMag, if_pos h]

theorem accMagEntry_all_some {f : WideFrame} {t x y z : ℚ}
    (hx : getCell f "accx_data" t = some x)
    (hy : getCell f "accy_data" t = some y)
    (hz : getCell f "accz_data" t = some z) :
    accMagEntry f t = some (t, accNorm x y z) := by
  rw [accMagEntry, hx, hy, hz]
  rfl

theorem accMagEntry_eq_none {f : WideFrame} {t : ℚ}
    (hmiss : getCell f "accx_data" t = none ∨ getCell f "accy_data" t = none ∨
      getCell f "accz_data" t = none) :
    accMagEntry f t = none := by
  rw [accMagEntry]
  rcases hx : getCell f "accx_data" t with _ | x
  · rfl
  rcases hy : getCell f "accy_data" t with _ | y
  · rfl
  rcases hz : getCell f "accz_data" t with _ | z
  · rfl
  · exfalso
    rcases hmiss with hm | hm | hm
    · rw [hm] at hx; exact Option.noConfusion hx
    · rw [hm] at hy; exact Option.noConfusion hy
    · rw [hm] at hz; exact Option.noConfusion hz

theorem accMagEntry_fst {f : WideFrame} {t : ℚ} {p : ℚ × ℚ}
    (h : accMagEntry f t = some p) : p.1 = t := by
  rw [accMagEntry] at h
  rcases hx : getCell f "accx_data" t with _ | x <;> rw [hx] at h
  · exact Option.noConfusion h
  rcases hy : getCell f "accy_data" t with _ | y <;> rw [hy] at h
  · exact Option.noConfusion h
  rcases hz : getCell f "accz_data" t with _ | z <;> rw [hz] at h
  · exact Option.noConfusion h
  · simp only [Option.some_bind, Option.map_some', Option.some.injEq] at h
    rw [← h]

theorem lookup_filterMap_accMagEntry_some {f : WideFrame} {L : List ℚ}
    {t x y z : ℚ} (hmem : t ∈ L)
    (hx : getCell f "accx_data" t = some x)
    (hy : getCell f "accy_data" t = some y)
    (hz : getCell f "accz_data" t = some z) :
    lookupSeries (L.filterMap (accMagEntry f)) t = some (accNorm x y z) := by
  have hgt := accMagEntry_all_some hx hy hz
  induction L with
  | nil => exact absurd hmem (by simp)
  | cons a L2 ih =>
    rcases List.mem_cons.mp hmem with rfl | hmem2
    · rw [List.filterMap_cons, hgt, lookupSeries,
        List.find?_cons_of_pos _ (by simp)]
      rfl
    · rw [List.filterMap_cons]
      rcases hga : accMagEntry f a with _ | p
      · exact ih hmem2
      · by_cases hat : a = t
        · subst hat
          rw [hgt] at hga
          simp only [Option.some.injEq] at hga
          rw [lookupSeries, List.find?_cons_of_pos _ (by simp [← hga])]
          rw [← hga]
          rfl
        · rw [lookupSeries,
            List.find?_cons_of_neg _ (by simp [accMagEntry_fst hga, hat])]
          exact ih hmem2

theorem lookup_filterMap_accMagEntry_none {f : WideFrame} {L : List ℚ} {t : ℚ}
    (hn : accMagEntry f t = none) :
    lookupSeries (L.filterMap (accMagEntry f)) t = none := by
  have hfind : (L.filterMap (accMagEntry f)).find? (fun p => p.1 == t)
      = none := by
    rw [List.find?_eq_none]
    intro p hp
    obtain ⟨u, _, hu⟩ := List.mem_filterMap.mp hp
    have hput : p.1 = u := accMagEntry_fst hu
    simp only [beq_iff_eq, hput]
    intro hut
    rw [hut, hn] at hu
    exact Option.noConfusion hu
  rw [lookupSeries, hfind]
  rfl

theorem getCol_addAccMag (f : WideFrame)
    (hnew : "acc_mag" ∉ colNames f) (h : ∀ n ∈ ACC_NAMES, n ∈ colNames f) :
    getCol (addAccMag f) "acc_mag"
      = some ⟨"acc_mag", (frameIndex f).filterMap (accMagEntry f)⟩ := by
  rw [addAccMag_eq f h, getCol, List.find?_append]
  have hfn : f.find? (fun c => c.name == "acc_mag") = none := by
    rw [List.find?_eq_none]
    intro c hc
    simp only [beq_iff_eq]
    exact fun he => hnew (he ▸ List.mem_map_of_mem Column.name hc)
  rw [hfn, Option.none_or, List.find?_cons_of_pos _ (by simp)]

/-- Claim C4: when the three accelerometer-axis columns are all present, an
`acc_mag` column is appended whose cell at each row equals the Euclidean
norm of the three axis cells and is missing wherever any axis cell is
missing; when some axis column is absent no `acc_mag` column is added. -/
theorem C4_acc_magnitude (f : WideFrame) (hnew : "acc_mag" ∉ colNames f) :
    ((∀ n ∈ ACC_NAMES, n ∈ colNames f) →
      colNames (addAccMag f) = colNames f ++ ["acc_mag"]
      ∧ (∀ t x y z, getCell f "accx_data" t = some x →
          getCell f "accy_data" t = some y →
          getCell f "accz_data" t = some z →
          getCell (addAccMag f) "acc_mag" t = some (accNorm x y z))
      ∧ (∀ t, (getCell f "accx_data" t = none ∨
          getCell f "accy_data" t = none ∨ getCell f "accz_data" t = none) →
          getCell (addAccMag f) "acc_mag" t = none))
    ∧ ((¬ ∀ n ∈ ACC_NAMES, n ∈ colNames f) → addAccMag f = f) := by
  constructor
  · intro h
    refine ⟨?_, ?_, ?_⟩
    · rw [addAccMag_eq f h, colNames, List.map_append]
      rfl
    · intro t x y z hx hy hz
      rw [getCell, getCol_addAccMag f hnew h, Option.some_bind]
      exact lookup_filterMap_accMagEntry_some
        (getCell_some_mem_frameIndex hx) hx hy hz
    · intro t hmiss
      rw [getCell, getCol_addAccMag f hnew h, Option.some_bind]
      exact lookup_filterMap_accMagEntry_none (accMagEntry_eq_none hmiss)
  · intro h
    rw [addAccMag, if_neg h]

/-- Witness for C4: axes 3, 4, 0 at time 0 give magnitude 5. -/
theorem C4_acc_magnitude_witness :
    colNames (addAccMag [⟨"accx_data", [(0, 3)]⟩, ⟨"accy_data", [(0, 4)]⟩,
        ⟨"accz_data", [(0, 0)]⟩])
      = ["accx_data", "accy_data", "accz_data", "acc_mag"]
    ∧ getCell (addAccMag [⟨"accx_data", [(0, 3)]⟩, ⟨"accy_data", [(0, 4)]⟩,
        ⟨"accz_data", [(0, 0)]⟩]) "acc_mag" 0 = some 5 := by
  have h := C4_acc_magnitude [⟨"accx_data", [(0, 3)]⟩, ⟨"accy_data", [(0, 4)]⟩,
    ⟨"accz_data", [(0, 0)]⟩] (by decide)
  have h1 := (h.1 (by decide)).1
  have h2 := (h.1 (by decide)).2.1 0 3 4 0 (by decide) (by decide) (by decide)
  refine ⟨by simpa using h1, ?_⟩
  rw [h2]
  norm_num [accNorm, Rat.sqrt]

/-! ### Claim C1: sub-second reconstruction -/

theorem foldl_min_le_init (xs : List Int) (a : Int) : xs.foldl min a ≤ a := by
  induction xs generalizing a with
  | nil => exact le_refl a
  | cons y ys ih =>
    rw [List.foldl_cons]
    exact le_trans (ih (min a y)) (min_le_left a y)

theorem foldl_min_le_mem (xs : List Int) (a x : Int) (hx : x ∈ xs) :
    xs.foldl min a ≤ x := by
  induction xs generalizing a with
  | nil => exact absurd hx (by simp)
  | cons y ys ih =>
    rw [List.foldl_cons]
    rcases List.mem_cons.mp hx with rfl | h2
    · exact le_trans (foldl_min_le_init ys (min a x)) (min_le_right a x)
    · exact ih (min a y) h2

theorem intMin_le {l : List Int} {x : Int} (hx : x ∈ l) : intMin l ≤ x := by
  cases l with
  | nil => exact absurd hx (by simp)
  | cons y ys =>
    rcases List.mem_cons.mp hx with rfl | h
    · exact foldl_min_le_init ys x
    · exact foldl_min_le_mem ys y x h

theorem foldl_max_init_le (xs : List Int) (a : Int) : a ≤ xs.foldl max a := by
  induction xs generalizing a with
  | nil => exact le_refl a
  | cons y ys ih =>
    rw [List.foldl_cons]
    exact le_trans (le_max_left a y) (ih (max a y))

theorem foldl_max_mem_le (xs : List Int) (a x : Int) (hx : x ∈ xs) :
    x ≤ xs.foldl max a := by
  induction xs generalizing a with
  | nil => exact absurd hx (by simp)
  | cons y ys ih =>
    rw [List.foldl_cons]
    rcases List.mem_cons.mp hx with rfl | h2
    · exact le_trans (le_max_right a x) (foldl_max_init_le ys (max a x))
    · exact ih (max a y) h2

theorem le_intMax {l : List Int} {x : Int} (hx : x ∈ l) : x ≤ intMax l := by
  cases l with
  | nil => exact absurd hx (by simp)
  | cons y ys =>
    rcases List.mem_cons.mp hx with rfl | h
    · exact foldl_max_init_le ys x
    · exact foldl_max_mem_le ys y x h

theorem mem_groupOf_self {rows : List RawRow} {r : RawRow} (hr : r ∈ rows) :
    r ∈ groupOf rows r :=
  List.mem_filter.mpr ⟨hr, by simp⟩

theorem countRange_cast_pos {rows : List RawRow} {r : RawRow}
    (hr : r ∈ rows) : (0 : ℚ) < ((countRange (groupOf rows r) : Int) : ℚ) := by
  have hmem := mem_groupOf_self hr
  have h1 : countMin (groupOf rows r) ≤ r.count :=
    intMin_le (List.mem_map_of_mem RawRow.count hmem)
  have h2 : r.count ≤ intMax ((groupOf rows r).map RawRow.count) :=
    le_intMax (List.mem_map_of_mem RawRow.count hmem)
  have : 0 < countRange (groupOf rows r) := by
    rw [countRange]; omega
  exact_mod_cast this

/-- Claim C1: within a whole-second group the reconstructed timestamp of a
row with counter `c` is `t + (c − c_min)/(c_max − c_min + 1)`; it lies in
`[t, t+1)`, is strictly increasing in the counter within the group, and a
singleton group is left at exactly `t`. -/
theorem C1_time_reconstruction (rows : List RawRow) (r : RawRow) (t : Int)
    (hr : r ∈ rows) (ht : r.time = t * 1000000000) :
    reconTime rows r
      = (t : ℚ) + ((r.count - countMin (groupOf rows r) : Int) : ℚ)
          / ((intMax ((groupOf rows r).map RawRow.count)
              - countMin (groupOf rows r) + 1 : Int) : ℚ)
    ∧ (t : ℚ) ≤ reconTime rows r
    ∧ reconTime rows r < (t : ℚ) + 1
    ∧ (∀ r2 ∈ rows, r2.time = r.time → r.count < r2.count →
        reconTime rows r < reconTime rows r2)
    ∧ (groupOf rows r = [r] → reconTime rows r = (t : ℚ)) := by
  have hmem := mem_groupOf_self hr
  have hminle : countMin (groupOf rows r) ≤ r.count :=
    intMin_le (List.mem_map_of_mem RawRow.count hmem)
  have hlemax : r.count ≤ intMax ((groupOf rows r).map RawRow.count) :=
    le_intMax (List.mem_map_of_mem RawRow.count hmem)
  have hpos := countRange_cast_pos hr
  have hform : reconTime rows r
      = (t : ℚ) + ((r.count - countMin (groupOf rows r) : Int) : ℚ)
          / ((countRange (groupOf rows r) : Int) : ℚ) := by
    rw [reconTime, ht, toSec_whole]
  refine ⟨hform, ?_, ?_, ?_, ?_⟩
  · rw [hform]
    have hnum : (0 : ℚ) ≤ ((r.count - countMin (groupOf rows r) : Int) : ℚ) := by
      exact_mod_cast Int.sub_nonneg.mpr hminle
    have := div_nonneg hnum (le_of_lt hpos)
    linarith
  · rw [hform]
    have hlt : ((r.count - countMin (groupOf rows r) : Int) : ℚ)
        / ((countRange (groupOf rows r) : Int) : ℚ) < 1 := by
      rw [div_lt_one hpos]
      have : r.count - countMin (groupOf rows r) < countRange (groupOf rows r) := by
        rw [countRange]; omega
      exact_mod_cast this
    linarith
  · intro r2 h2mem h2time hcount
    have hg2 : groupOf rows r2 = groupOf rows r := by
      unfold groupOf
      simp [h2time]
    rw [reconTime, reconTime, hg2, h2time]
    apply add_lt_add_left
    rw [div_lt_div_iff_of_pos_right hpos]
    have : r.count - countMin (groupOf rows r)
        < r2.count - countMin (groupOf rows r) := by omega
    exact_mod_cast this
  · intro hsingle
    rw [hform, hsingle]
    simp [countMin, countRange, intMin, intMax]

/-- Witness for C1: two rows at second 2 with counters 3 < 7. -/
theorem C1_time_reconstruction_witness :
    (2 : ℚ) ≤ reconTime [⟨2000000000, 6, 5, none, 3, 0⟩,
        ⟨2000000000, 6, 7, none, 7, 0⟩] ⟨2000000000, 6, 5, none, 3, 0⟩
    ∧ reconTime [⟨2000000000, 6, 5, none, 3, 0⟩,
        ⟨2000000000, 6, 7, none, 7, 0⟩] ⟨2000000000, 6, 5, none, 3, 0⟩
      < (2 : ℚ) + 1
    ∧ reconTime [⟨2000000000, 6, 5, none, 3, 0⟩,
        ⟨2000000000, 6, 7, none, 7, 0⟩] ⟨2000000000, 6, 5, none, 3, 0⟩
      < reconTime [⟨2000000000, 6, 5, none, 3, 0⟩,
        ⟨2000000000, 6, 7, none, 7, 0⟩] ⟨2000000000, 6, 7, none, 7, 0⟩ :=
  let h := C1_time_reconstruction
    [⟨2000000000, 6, 5, none, 3, 0⟩, ⟨2000000000, 6, 7, none, 7, 0⟩]
    ⟨2000000000, 6, 5, none, 3, 0⟩ 2 (by decide) (by decide)
  ⟨h.2.1, h.2.2.1,
    h.2.2.2.1 ⟨2000000000, 6, 7, none, 7, 0⟩ (by decide) (by decide) (by decide)⟩

/-! ### Claim C6: timeshift to an absolute anchor -/

theorem foldl_min_map_add (c : Int) (xs : List Int) (a : Int) :
    (xs.map (fun x => c + x)).foldl min (c + a) = c + xs.foldl min a := by
  induction xs generalizing a with
  | nil => rfl
  | cons y ys ih =>
    rw [List.map_cons, List.foldl_cons, List.foldl_cons,
      show min (c + a) (c + y) = c + min a y by omega]
    exact ih (min a y)

theorem intMin_map_add (c : Int) (l : List Int) (h : l ≠ []) :
    intMin (l.map (fun x => c + x)) = c + intMin l := by
  cases l with
  | nil => exact absurd rfl h
  | cons y ys =>
    rw [List.map_cons, intMin, intMin]
    exact foldl_min_map_add c ys y

/-- Claim C6: the anchor branch of `timeshift` rewrites each present raw
table independently so that its minimum time is exactly the anchor and all
pairwise time differences within the table are preserved. -/
theorem C6_timeshift_anchor (A : Int) (rd : Reader) (tb : RawTable) :
    rawTablesOf (timeshiftAnchor A rd)
      = (rawTablesOf rd).map (Option.map (shiftAnchor A))
    ∧ (shiftAnchor A tb).rows
        = tb.rows.map (fun r => { r with time := A + (r.time - minTime tb.rows) })
    ∧ (tb.rows ≠ [] → minTime (shiftAnchor A tb).rows = A)
    ∧ ∀ (i j : Nat) (hi : i < tb.rows.length) (hj : j < tb.rows.length),
        ((shiftAnchor A tb).rows.get ⟨i, by simpa [shiftAnchor] using hi⟩).time
          - ((shiftAnchor A tb).rows.get ⟨j, by simpa [shiftAnchor] using hj⟩).time
          = (tb.rows.get ⟨i, hi⟩).time - (tb.rows.get ⟨j, hj⟩).time := by
  refine ⟨rfl, rfl, fun hne => ?_, fun i j hi hj => ?_⟩
  · have hmap : (shiftAnchor A tb).rows.map RawRow.time
        = (tb.rows.map RawRow.time).map
            (fun x => (A - minTime tb.rows) + x) := by
      simp only [shiftAnchor, List.map_map]
      exact List.map_congr_left fun r _ => by simp; omega
    rw [minTime, hmap, intMin_map_add _ _ (by simpa using hne)]
    rw [← minTime]
    omega
  · simp only [shiftAnchor, List.get_eq_getElem, List.getElem_map]
    omega

/-- Witness for C6 at a concrete two-row table. -/
theorem C6_timeshift_anchor_witness :
    minTime (shiftAnchor 5
        ⟨false, [⟨100, 6, 1, none, 0, 0⟩, ⟨130, 6, 2, none, 1, 0⟩]⟩).rows = 5
    ∧ ((shiftAnchor 5 ⟨false, [⟨100, 6, 1, none, 0, 0⟩,
          ⟨130, 6, 2, none, 1, 0⟩]⟩).rows.get ⟨0, by decide⟩).time
        - ((shiftAnchor 5 ⟨false, [⟨100, 6, 1, none, 0, 0⟩,
            ⟨130, 6, 2, none, 1, 0⟩]⟩).rows.get ⟨1, by decide⟩).time
      = (([⟨100, 6, 1, none, 0, 0⟩, ⟨130, 6, 2, none, 1, 0⟩] :
            List RawRow).get ⟨0, by decide⟩).time
        - (([⟨100, 6, 1, none, 0, 0⟩, ⟨130, 6, 2, none, 1, 0⟩] :
            List RawRow).get ⟨1, by decide⟩).time :=
  let h := C6_timeshift_anchor 5
    ⟨[], [], [], none, none, none, none, none, none, none⟩
    ⟨false, [⟨100, 6, 1, none, 0, 0⟩, ⟨130, 6, 2, none, 1, 0⟩]⟩
  ⟨h.2.2.1 (by decide), h.2.2.2 0 1 (by decide) (by decide)⟩

/-! ### Claim C7: timeshift by an explicit duration commutes with the
pipeline -/

/-- An index point of a wide-frame column, shifted by `d` seconds. -/
def shiftPoint (d : ℚ) (p : ℚ × ℚ) : ℚ × ℚ := (p.1 + d, p.2)

/-- A wide-frame column with its whole time index shifted by `d` seconds. -/
def shiftColumn (d : ℚ) (c : Column) : Column :=
  ⟨c.name, c.series.map (shiftPoint d)⟩

theorem shiftRow_injective (D : Int) : Function.Injective (shiftRow D) := by
  intro a b h
  cases a; cases b
  simp only [shiftRow, RawRow.mk.injEq] at h ⊢
  exact ⟨by omega, h.2⟩

theorem dedupKeepFirst_map_inj {α β : Type} [DecidableEq α] [DecidableEq β]
    {f : α → β} (hf : Function.Injective f) (l seen : List α) :
    dedupKeepFirst (l.map f) (seen.map f)
      = (dedupKeepFirst l seen).map f := by
  induction l generalizing seen with
  | nil => rfl
  | cons x xs ih =>
    rw [List.map_cons, dedupKeepFirst, dedupKeepFirst]
    by_cases hx : x ∈ seen
    · rw [if_pos (List.mem_map_of_mem f hx), if_pos hx]
      exact ih seen
    · rw [if_neg (fun hc => hx ((List.mem_map_of_injective hf).mp hc)),
        if_neg hx, List.map_cons, ← ih (x :: seen), List.map_cons]

theorem dropDuplicates_map_inj {α β : Type} [DecidableEq α] [DecidableEq β]
    {f : α → β} (hf : Function.Injective f) (l : List α) :
    dropDuplicates (l.map f) = (dropDuplicates l).map f :=
  dedupKeepFirst_map_inj hf l []

theorem prepRows_shift (rows : List RawRow) (sel : Option (List Int))
    (D : Int) :
    prepRows (rows.map (shiftRow D)) sel
      = (prepRows rows sel).map (shiftRow D) := by
  cases sel with
  | none => exact dropDuplicates_map_inj (shiftRow_injective D) rows
  | some s =>
    rw [prepRows, prepRows, dropDuplicates_map_inj (shiftRow_injective D),
      List.filter_map]
    exact congrArg (List.map (shiftRow D))
      (List.filter_congr fun r _ => rfl)

theorem toSec_add (x D : Int) : toSec (x + D) = toSec x + toSec D := by
  rw [toSec, toSec, toSec]
  push_cast
  rw [add_div]

theorem groupOf_shift (rows : List RawRow) (r : RawRow) (D : Int) :
    groupOf (rows.map (shiftRow D)) (shiftRow D r)
      = (groupOf rows r).map (shiftRow D) := by
  rw [groupOf, groupOf, List.filter_map]
  refine congrArg (List.map (shiftRow D)) (List.filter_congr fun s _ => ?_)
  show (toSec (s.time + D) == toSec (r.time + D)) = (toSec s.time == toSec r.time)
  rw [toSec_add, toSec_add]
  exact decide_eq_decide.mpr (add_left_inj (toSec D))

theorem countMin_map_shift (g : List RawRow) (D : Int) :
    countMin (g.map (shiftRow D)) = countMin g := by
  rw [countMin, countMin, List.map_map]
  exact congrArg intMin (List.map_congr_left fun r _ => rfl)

theorem countRange_map_shift (g : List RawRow) (D : Int) :
    countRange (g.map (shiftRow D)) = countRange g := by
  rw [countRange, countRange, countMin_map_shift, List.map_map]
  rw [show g.map (RawRow.count ∘ shiftRow D) = g.map RawRow.count from
    List.map_congr_left fun r _ => rfl]

theorem reconTime_shift (rows : List RawRow) (r : RawRow) (D : Int) :
    reconTime (rows.map (shiftRow D)) (shiftRow D r)
      = reconTime rows r + toSec D := by
  rw [reconTime, reconTime, groupOf_shift, countMin_map_shift,
    countRange_map_shift]
  rw [show (shiftRow D r).time = r.time + D from rfl,
    show (shiftRow D r).count = r.count from rfl, toSec_add]
  ring

theorem tagGroup_shift (rows : List RawRow) (tag : Int) (D : Int) :
    tagGroup (rows.map (shiftRow D)) tag
      = (tagGroup rows tag).map (shiftRow D) := by
  rw [tagGroup, tagGroup, List.filter_map]
  exact congrArg (List.map (shiftRow D)) (List.filter_congr fun r _ => rfl)

theorem distinctTags_shift (rows : List RawRow) (D : Int) :
    distinctTags (rows.map (shiftRow D)) = distinctTags rows := by
  rw [distinctTags, distinctTags, List.map_map]
  rw [show rows.map (RawRow.tag ∘ shiftRow D) = rows.map RawRow.tag from
    List.map_congr_left fun r _ => rfl]

theorem orderedInsert_map {α β : Type} (ra : α → α → Prop)
    (rb : β → β → Prop) [DecidableRel ra] [DecidableRel rb] (g : α → β)
    (hg : ∀ a b, rb (g a) (g b) ↔ ra a b) (a : α) (l : List α) :
    List.orderedInsert rb (g a) (l.map g)
      = (List.orderedInsert ra a l).map g := by
  induction l with
  | nil => rfl
  | cons y ys ih =>
    rw [List.map_cons, List.orderedInsert, List.orderedInsert]
    by_cases h : ra a y
    · rw [if_pos ((hg a y).mpr h), if_pos h, List.map_cons, List.map_cons]
    · rw [if_neg (fun hc => h ((hg a y).mp hc)), if_neg h, List.map_cons, ih]

theorem insertionSort_map {α β : Type} (ra : α → α → Prop)
    (rb : β → β → Prop) [DecidableRel ra] [DecidableRel rb] (g : α → β)
    (hg : ∀ a b, rb (g a) (g b) ↔ ra a b) (l : List α) :
    List.insertionSort rb (l.map g) = (List.insertionSort ra l).map g := by
  induction l with
  | nil => rfl
  | cons y ys ih =>
    rw [List.map_cons, List.insertionSort, List.insertionSort, ih,
      orderedInsert_map ra rb g hg]

theorem processTag_shift (hasQ : Bool) (rows : List RawRow) (tag : Int)
    (D : Int) :
    processTag hasQ (rows.map (shiftRow D)) tag
      = (processTag hasQ rows tag).map
          (Option.map (List.map (shiftColumn (toSec D)))) := by
  rcases htn : tagName tag with _ | name
  · simp [processTag, htn, Except.map]
  · simp only [processTag, htn]
    rw [tagGroup_shift]
    have hempty : ((tagGroup rows tag).map (shiftRow D)).isEmpty
        = (tagGroup rows tag).isEmpty := by
      cases tagGroup rows tag <;> rfl
    have hzero : (∀ r ∈ (tagGroup rows tag).map (shiftRow D), r.values = 0)
        ↔ (∀ r ∈ tagGroup rows tag, r.values = 0) := by
      rw [List.forall_mem_map]
      exact forall_congr' fun r => forall_congr' fun _ => Iff.rfl
    have hkeep :
        (hasQ && decide (∀ r ∈ (tagGroup rows tag).map (shiftRow D),
          r.quality.isSome = true))
        = (hasQ && decide (∀ r ∈ tagGroup rows tag,
            r.quality.isSome = true)) := by
      congr 1
      refine decide_eq_decide.mpr ?_
      rw [List.forall_mem_map]
      exact forall_congr' fun r => forall_congr' fun _ => Iff.rfl
    by_cases hskip : (tagGroup rows tag).isEmpty = true
        ∨ ∀ r ∈ tagGroup rows tag, r.values = 0
    · rw [if_pos, if_pos hskip]
      · rfl
      · rcases hskip with h | h
        · exact Or.inl (by rw [hempty]; exact h)
        · exact Or.inr (hzero.mpr h)
    · have hskip2 : ¬ (((tagGroup rows tag).map (shiftRow D)).isEmpty = true
          ∨ ∀ r ∈ (tagGroup rows tag).map (shiftRow D), r.values = 0) := by
        rintro (h | h)
        · exact hskip (Or.inl (by rwa [hempty] at h))
        · exact hskip (Or.inr (hzero.mp h))
      rw [if_neg hskip2, if_neg hskip]
      have hpairs : ((tagGroup rows tag).map (shiftRow D)).map
          (fun r => (reconTime (rows.map (shiftRow D)) r, r))
          = ((tagGroup rows tag).map (fun r => (reconTime rows r, r))).map
              (fun p => (p.1 + toSec D, shiftRow D p.2)) := by
        rw [List.map_map, List.map_map]
        refine List.map_congr_left fun r _ => ?_
        simp only [Function.comp_apply]
        rw [reconTime_shift]
      rw [hpairs]
      have hfst : (((tagGroup rows tag).map
            (fun r => (reconTime rows r, r))).map
            (fun p => (p.1 + toSec D, shiftRow D p.2))).map Prod.fst
          = (((tagGroup rows tag).map
              (fun r => (reconTime rows r, r))).map Prod.fst).map
                (fun x => x + toSec D) := by
        simp only [List.map_map]
        exact List.map_congr_left fun p _ => rfl
      have hinj : Function.Injective (fun x : ℚ => x + toSec D) :=
        fun a b h => by simpa using h
      by_cases hdup : (((tagGroup rows tag).map
          (fun r => (reconTime rows r, r))).map Prod.fst).Nodup
      · rw [if_pos (by rw [hfst]; exact (List.nodup_map_iff hinj).mpr hdup),
          if_pos hdup]
        rw [insertionSort_map (fun a b : ℚ × RawRow => a.1 ≤ b.1)
          (fun a b : ℚ × RawRow => a.1 ≤ b.1)
          (fun p => (p.1 + toSec D, shiftRow D p.2))
          (fun a b => add_le_add_iff_right (toSec D)) _]
        rw [hkeep]
        simp only [Except.map, Option.map_some']
        congr 1
        congr 1
        rw [List.map_cons]
        congr 1
        · rw [shiftColumn]
          congr 1
          rw [List.map_map, List.map_map]
          exact List.map_congr_left fun p _ => rfl
        · by_cases hk : (hasQ && decide (∀ r ∈ tagGroup rows tag,
              r.quality.isSome = true)) = true
          · rw [if_pos hk, if_pos hk, List.map_cons, List.map_nil]
            congr 1
            rw [shiftColumn]
            congr 1
            rw [List.map_map, List.map_map]
            exact List.map_congr_left fun p _ => rfl
          · rw [if_neg hk, if_neg hk, List.map_nil]
      · have hnd2 : ¬ ((((tagGroup rows tag).map
            (fun r => (reconTime rows r, r))).map
              (fun p => (p.1 + toSec D, shiftRow D p.2))).map Prod.fst).Nodup := by
          rw [hfst]
          exact fun hc => hdup ((List.nodup_map_iff hinj).mp hc)
        rw [if_neg hnd2, if_neg hdup]
        rfl

theorem foldlM_processTag_shift (hasQ : Bool) (rows : List RawRow) (D : Int)
    (tags : List Int) (acc : WideFrame) :
    (tags.foldlM (fun acc tag => do
        match ← processTag hasQ (rows.map (shiftRow D)) tag with
        | none => pure acc
        | some cols => pure (acc ++ cols))
      (acc.map (shiftColumn (toSec D))) : Except String WideFrame)
      = Except.map (List.map (shiftColumn (toSec D)))
          (tags.foldlM (fun acc tag => do
            match ← processTag hasQ rows tag with
            | none => pure acc
            | some cols => pure (acc ++ cols)) acc) := by
  induction tags generalizing acc with
  | nil => rfl
  | cons t ts ih =>
    rw [List.foldlM_cons, List.foldlM_cons, processTag_shift]
    rcases hpt : processTag hasQ rows t with e | o
    · rfl
    · cases o with
      | none =>
        simpa [Except.map, Bind.bind, Except.bind, Pure.pure, Except.pure]
          using ih acc
      | some cols =>
        have h2 := ih (acc ++ cols)
        rw [List.map_append] at h2
        simpa [Except.map, Bind.bind, Except.bind, Pure.pure, Except.pure]
          using h2

theorem convertSingleDataframe_shift (df : Option RawTable)
    (sel : Option (List Int)) (D : Int) :
    convertSingleDataframe (df.map (shiftDelta D)) sel
      = (convertSingleDataframe df sel).map
          (List.map (shiftColumn (toSec D))) := by
  cases df with
  | none => rfl
  | some t =>
    simp only [Option.map_some', convertSingleDataframe]
    rw [show (shiftDelta D t).rows = t.rows.map (shiftRow D) from rfl,
      show (shiftDelta D t).hasQuality = t.hasQuality from rfl,
      prepRows_shift, distinctTags_shift]
    exact foldlM_processTag_shift t.hasQuality (prepRows t.rows sel) D _ []

theorem colNames_shiftFrame (f : WideFrame) (d : ℚ) :
    colNames (f.map (shiftColumn d)) = colNames f := by
  rw [colNames, colNames, List.map_map]
  exact List.map_congr_left fun c _ => rfl

theorem sortedInsert_map_add (d t : ℚ) (l : List ℚ) :
    sortedInsert (t + d) (l.map (fun x => x + d))
      = (sortedInsert t l).map (fun x => x + d) := by
  induction l with
  | nil => rfl
  | cons y ys ih =>
    rw [List.map_cons, sortedInsert, sortedInsert]
    by_cases h1 : t < y
    · rw [if_pos (add_lt_add_right h1 d), if_pos h1, List.map_cons,
        List.map_cons]
    · have h1b : ¬ (t + d < y + d) := fun hc => h1 (lt_of_add_lt_add_right hc)
      rw [if_neg h1b, if_neg h1]
      by_cases h2 : t = y
      · have h2b : (t + d == y + d) = true := by
          rw [h2]; exact beq_self_eq_true (y + d)
        have h2c : (t == y) = true := by rw [h2]; exact beq_self_eq_true y
        rw [if_pos h2b, if_pos h2c, List.map_cons]
      · have h2b : ¬ ((t + d == y + d) = true) := by
          rw [beq_iff_eq]
          exact fun hc => h2 ((add_left_inj d).mp hc)
        have h2c : ¬ ((t == y) = true) := by
          rw [beq_iff_eq]; exact h2
        rw [if_neg h2b, if_neg h2c, List.map_cons, ih]

theorem foldr_sortedInsert_map_add (d : ℚ) (l init : List ℚ) :
    (l.map (fun x => x + d)).foldr sortedInsert
        (init.map (fun x => x + d))
      = (l.foldr sortedInsert init).map (fun x => x + d) := by
  induction l with
  | nil => rfl
  | cons y ys ih =>
    rw [List.map_cons, List.foldr_cons, List.foldr_cons, ih,
      sortedInsert_map_add]

theorem frameIndex_shift (f : WideFrame) (d : ℚ) :
    frameIndex (f.map (shiftColumn d))
      = (frameIndex f).map (fun x => x + d) := by
  rw [frameIndex, frameIndex]
  have h1 : (f.map (shiftColumn d)).flatMap (fun c => c.series.map Prod.fst)
      = (f.flatMap (fun c => c.series.map Prod.fst)).map
          (fun x => x + d) := by
    rw [List.flatMap_map, List.map_flatMap]
    refine congrArg f.flatMap (funext fun c => ?_)
    rw [show (shiftColumn d c).series = c.series.map (shiftPoint d) from rfl,
      List.map_map, List.map_map]
    exact List.map_congr_left fun p _ => rfl
  rw [h1]
  exact foldr_sortedInsert_map_add d _ []

theorem getCol_shiftFrame (f : WideFrame) (d : ℚ) (n : String) :
    getCol (f.map (shiftColumn d)) n = (getCol f n).map (shiftColumn d) := by
  rw [getCol, getCol, List.find?_map]
  rfl

theorem lookupSeries_shift (s : List (ℚ × ℚ)) (d t : ℚ) :
    lookupSeries (s.map (shiftPoint d)) (t + d) = lookupSeries s t := by
  rw [lookupSeries, lookupSeries, List.find?_map, Option.map_map]
  rw [show ((fun p : ℚ × ℚ => p.1 == t + d) ∘ shiftPoint d)
      = fun p : ℚ × ℚ => (p.1 == t) from funext fun p => by
    show decide (p.1 + d = t + d) = decide (p.1 = t)
    exact decide_eq_decide.mpr (add_left_inj d)]
  rfl

theorem getCell_shift (f : WideFrame) (d : ℚ) (n : String) (t : ℚ) :
    getCell (f.map (shiftColumn d)) n (t + d) = getCell f n t := by
  rw [getCell, getCell, getCol_shiftFrame]
  cases getCol f n with
  | none => rfl
  | some c =>
    simp only [Option.map_some', Option.some_bind]
    exact lookupSeries_shift c.series d t

theorem accMagEntry_shift (f : WideFrame) (d t : ℚ) :
    accMagEntry (f.map (shiftColumn d)) (t + d)
      = (accMagEntry f t).map (shiftPoint d) := by
  rw [accMagEntry, accMagEntry, getCell_shift, getCell_shift, getCell_shift]
  cases getCell f "accx_data" t <;> cases getCell f "accy_data" t <;>
    cases getCell f "accz_data" t <;> rfl

theorem addAccMag_shift (f : WideFrame) (d : ℚ) :
    addAccMag (f.map (shiftColumn d)) = (addAccMag f).map (shiftColumn d) := by
  by_cases h : ∀ n ∈ ACC_NAMES, n ∈ colNames f
  · rw [addAccMag, addAccMag, if_pos h,
      if_pos (show ∀ n ∈ ACC_NAMES, n ∈ colNames (f.map (shiftColumn d)) by
        rwa [colNames_shiftFrame]),
      List.map_append]
    congr 1
    rw [frameIndex_shift, List.filterMap_map]
    show [(⟨"acc_mag", _⟩ : Column)] = [(⟨"acc_mag", _⟩ : Column)]
    congr 2
    rw [show (accMagEntry (f.map (shiftColumn d)) ∘ fun x => x + d)
        = fun t => (accMagEntry f t).map (shiftPoint d) from
      funext fun t => accMagEntry_shift f d t]
    rw [List.map_filterMap]
  · rw [addAccMag, addAccMag, if_neg h,
      if_neg (show ¬ ∀ n ∈ ACC_NAMES, n ∈ colNames (f.map (shiftColumn d)) by
        rwa [colNames_shiftFrame])]

theorem joinData_shift (rd : Reader) (D : Int) :
    joinData (timeshiftDelta D rd)
      = (joinData rd).map (List.map (shiftColumn (toSec D))) := by
  simp only [joinData, timeshiftDelta]
  rw [convertSingleDataframe_shift, convertSingleDataframe_shift,
    convertSingleDataframe_shift]
  rcases convertSingleDataframe rd.signals (some rd.signal_tags) with es | s
  · rfl
  rcases convertSingleDataframe rd.features (some rd.feature_tags) with ef | fT
  · rfl
  rcases convertSingleDataframe rd.sensors (some rd.sensor_tags) with en | nT
  · rfl
  · simp only [Except.map, Bind.bind, Except.bind, Pure.pure, Except.pure]
    rw [← List.map_append, ← List.map_append, addAccMag_shift]

/-- Claim C7: an explicit-duration timeshift adds `D` to every `time` value
of every present raw table, leaves all other columns untouched, and the
recombined table is the old combined table with its index uniformly shifted
by `D` (same column set, same row count). -/
theorem C7_timeshift_delta (D : Int) (rd : Reader) (f : WideFrame)
    (h : joinData rd = .ok f) :
    rawTablesOf (timeshiftDelta D rd)
      = (rawTablesOf rd).map (Option.map (shiftDelta D))
    ∧ (∀ tb : RawTable, (shiftDelta D tb).hasQuality = tb.hasQuality
        ∧ (shiftDelta D tb).rows.map RawRow.time
            = tb.rows.map (fun r => r.time + D)
        ∧ (shiftDelta D tb).rows.map RawRow.tag = tb.rows.map RawRow.tag
        ∧ (shiftDelta D tb).rows.map RawRow.values
            = tb.rows.map RawRow.values
        ∧ (shiftDelta D tb).rows.map RawRow.quality
            = tb.rows.map RawRow.quality
        ∧ (shiftDelta D tb).rows.map RawRow.count = tb.rows.map RawRow.count
        ∧ (shiftDelta D tb).rows.map RawRow.streamType
            = tb.rows.map RawRow.streamType)
    ∧ joinData (timeshiftDelta D rd) = .ok (f.map (shiftColumn (toSec D)))
    ∧ colNames (f.map (shiftColumn (toSec D))) = colNames f
    ∧ frameIndex (f.map (shiftColumn (toSec D)))
        = (frameIndex f).map (fun t => t + toSec D)
    ∧ (frameIndex (f.map (shiftColumn (toSec D)))).length
        = (frameIndex f).length := by
  refine ⟨rfl, ?_, ?_, colNames_shiftFrame f (toSec D),
    frameIndex_shift f (toSec D), ?_⟩
  · intro tb
    refine ⟨rfl, ?_, ?_, ?_, ?_, ?_, ?_⟩ <;>
      rw [show (shiftDelta D tb).rows = tb.rows.map (shiftRow D) from rfl,
        List.map_map] <;>
      exact List.map_congr_left fun r _ => rfl
  · rw [joinData_shift, h]
    rfl
  · rw [frameIndex_shift, List.length_map]

/-- Witness for C7 at a one-row signals table shifted by one second. -/
theorem C7_timeshift_delta_witness :
    joinData (timeshiftDelta 1000000000
        ⟨[6], [], [], none, none, none, none, none, none,
          some ⟨false, [⟨0, 6, 1, none, 0, 1⟩]⟩⟩)
      = .ok ([⟨"heart_rate", [(0, 1)]⟩].map (shiftColumn (toSec 1000000000)))
    ∧ frameIndex ([⟨"heart_rate", [(0, 1)]⟩].map
          (shiftColumn (toSec 1000000000)))
        = (frameIndex [⟨"heart_rate", [(0, 1)]⟩]).map
            (fun t => t + toSec 1000000000) :=
  let h := C7_timeshift_delta 1000000000
    ⟨[6], [], [], none, none, none, none, none, none,
      some ⟨false, [⟨0, 6, 1, none, 0, 1⟩]⟩⟩
    [⟨"heart_rate", [(0, 1)]⟩]
    (by
      norm_num [joinData, convertSingleDataframe, prepRows, dropDuplicates,
        dedupKeepFirst, distinctTags, processTag, tagGroup, tagName,
        lookupTag, reconTime, groupOf, toSec, countMin, countRange, intMin,
        intMax, qualityName, List.foldlM, Bind.bind, Except.bind, Pure.pure,
        Except.pure, List.insertionSort, List.orderedInsert, List.find?,
        addAccMag, ACC_NAMES, colNames]
      decide)
  ⟨h.2.2.1, h.2.2.2.2.1⟩

end Everion
